import Mathlib

/-!
# Verification of the hookmanager registry library

A shallow embedding of the four hook-registry variants of the
`hookmanager` TypeScript library (`src/core.ts`, `src/priorityHooks.ts`,
`src/parallelHooks.ts`, `src/scopedHooks.ts`, `src/errors.ts`), together
with proofs that settle the specification claims.

Modelling conventions:
* A JavaScript `Map` (insertion-ordered) is an association list
  `List (String × α)`; `set` replaces in place or appends, `delete`
  filters, `keys` projects in order.
* A callback function object is a `Cb`: an identity `id` (modelling JS
  reference identity — distinct function objects get distinct ids) and a
  fixed observable behaviour: return normally, throw synchronously, or
  return a promise that rejects.  Awaiting `Promise.resolve(fn(data))`
  treats the two failure modes identically; `Array.prototype.map` does
  not (a synchronous throw aborts the map).
* Thrown values are either `Error` instances carrying a message
  (`instanceof Error` succeeds) or arbitrary non-error values.
* Each `on` returns the ordered trace of invoked callback ids, making
  invocation order and fail-fast behaviour observable, together with an
  `Except` result.
-/

/-- A JavaScript value thrown or used to reject a promise: either an
`Error` instance with a message, or any non-error value (rendered as a
string for the model). -/
inductive ThrownVal
  | errorVal (msg : String)
  | nonErrorVal (v : String)
deriving DecidableEq, Repr

/-- The observable behaviour of a hook callback when invoked. -/
inductive CbBehavior
  | ok
  | syncThrow (v : ThrownVal)
  | asyncReject (v : ThrownVal)
deriving DecidableEq, Repr

/-- A hook callback function object: `id` models JS reference identity
(distinct function objects receive distinct ids). -/
structure Cb where
  id : Nat
  behavior : CbBehavior
deriving DecidableEq, Repr

/-- The result of `await Promise.resolve(fn(data))`: `none` on normal
completion, `some v` when the callback threw or rejected with `v`.
Both failure modes surface identically at an `await`. -/
def runCb (c : Cb) : Option ThrownVal :=
  match c.behavior with
  | .ok => none
  | .syncThrow v => some v
  | .asyncReject v => some v

/-! ## The error classes of `src/errors.ts` -/

/-- The error classes involved: the built-in `Error` plus the three
classes declared in `src/errors.ts`. -/
inductive JsClass
  | errorCls
  | hookErrorCls
  | hookNotFoundErrorCls
  | duplicateHookErrorCls
deriving DecidableEq, Repr

/-- The prototype chain of each class, per the `extends` declarations in
`src/errors.ts`: `HookError extends Error`,
`HookNotFoundError extends HookError`,
`DuplicateHookError extends HookError`. -/
def protoChain : JsClass → List JsClass
  | .errorCls => [.errorCls]
  | .hookErrorCls => [.hookErrorCls, .errorCls]
  | .hookNotFoundErrorCls => [.hookNotFoundErrorCls, .hookErrorCls, .errorCls]
  | .duplicateHookErrorCls => [.duplicateHookErrorCls, .hookErrorCls, .errorCls]

/-- `e instanceof T` for an object of class `c`: `T` occurs on the
prototype chain of `c`. -/
def instanceOf (c target : JsClass) : Bool :=
  (protoChain c).contains target

/-- An error object as thrown by the library: its constructor class, its
`name` tag and its `message`. -/
structure HookErrObj where
  cls : JsClass
  name : String
  message : String
deriving DecidableEq, Repr

/-- `new HookError(message)` from `src/errors.ts`. -/
def mkHookError (message : String) : HookErrObj :=
  ⟨.hookErrorCls, "HookError", message⟩

/-- `new HookNotFoundError(hookName)` from `src/errors.ts`. -/
def mkHookNotFoundError (hookName : String) : HookErrObj :=
  ⟨.hookNotFoundErrorCls, "HookNotFoundError",
    "Hook \"" ++ hookName ++ "\" is not registered"⟩

/-- `new DuplicateHookError(hookName)` from `src/errors.ts`. -/
def mkDuplicateHookError (hookName : String) : HookErrObj :=
  ⟨.duplicateHookErrorCls, "DuplicateHookError",
    "Hook \"" ++ hookName ++ "\" is already registered"⟩

/-- The `catch` block shared verbatim by every `on` implementation
(`core.ts`, `priorityHooks.ts`, `parallelHooks.ts`): an `Error` instance
is re-wrapped with the hook name and the original message; any other
thrown value yields the generic unknown-error message. -/
def wrapCaught (hookName : String) : ThrownVal → HookErrObj
  | .errorVal msg =>
      mkHookError ("Error in hook \"" ++ hookName ++ "\": " ++ msg)
  | .nonErrorVal _ =>
      mkHookError ("Unknown error in hook \"" ++ hookName ++ "\"")

/-- `a` occurs as a contiguous substring of `b`. -/
def SubstrOf (a b : String) : Prop :=
  a.data <:+: b.data

instance (a b : String) : Decidable (SubstrOf a b) := by
  unfold SubstrOf; infer_instance

/-! ## The JavaScript `Map` model -/

namespace JsMap

variable {α : Type}

/-- `map.get(k)` (with `undefined` as `none`).  The registries only ever
hold each key once, so first-occurrence lookup is the JS `Map` lookup. -/
def get? : List (String × α) → String → Option α
  | [], _ => none
  | p :: ps, k => if p.1 == k then some p.2 else get? ps k

/-- `map.has(k)`. -/
def hasKey : List (String × α) → String → Bool
  | [], _ => false
  | p :: ps, k => p.1 == k || hasKey ps k

/-- `map.set(k, v)`: replaces the value in place when the key is
present (a JS `Map` keeps the key's insertion position), otherwise
appends the new entry. -/
def set : List (String × α) → String → α → List (String × α)
  | [], k, v => [(k, v)]
  | p :: ps, k, v => if p.1 == k then (k, v) :: ps else p :: set ps k v

/-- The state left by `map.delete(k)`. -/
def del : List (String × α) → String → List (String × α)
  | [], _ => []
  | p :: ps, k => if p.1 == k then ps else p :: del ps k

/-- `Array.from(map.keys())`: keys in insertion order. -/
def keysOf (m : List (String × α)) : List String :=
  m.map (·.1)

theorem hasKey_eq_isSome_get? (m : List (String × α)) (k : String) :
    hasKey m k = (get? m k).isSome := by
  induction m with
  | nil => rfl
  | cons p ps ih =>
    by_cases hp : p.1 = k <;> simp [get?, hasKey, hp, ih]

theorem get?_set_self (m : List (String × α)) (k : String) (v : α) :
    get? (set m k v) k = some v := by
  induction m with
  | nil => simp [set, get?]
  | cons p ps ih =>
    by_cases hp : p.1 = k <;> simp [set, get?, hp, ih]

theorem get?_set_ne (m : List (String × α)) (k k' : String) (v : α)
    (hne : k' ≠ k) : get? (set m k v) k' = get? m k' := by
  have hkk' : (k == k') = false := beq_eq_false_iff_ne.mpr (Ne.symm hne)
  induction m with
  | nil => simp [set, get?, hkk']
  | cons p ps ih =>
    by_cases hp : p.1 = k
    · have hpk : (p.1 == k) = true := by simp [hp]
      have hpk' : (p.1 == k') = false := by rw [hp]; exact hkk'
      simp [set, get?, hpk, hpk', hkk']
    · have hpk : (p.1 == k) = false := by simp [hp]
      by_cases hp' : p.1 = k'
      · have hpk' : (p.1 == k') = true := by simp [hp']
        simp [set, get?, hpk, hpk', ih]
      · have hpk' : (p.1 == k') = false := by simp [hp']
        simp [set, get?, hpk, hpk', ih]

theorem mem_keysOf_iff_hasKey (m : List (String × α)) (k : String) :
    k ∈ keysOf m ↔ hasKey m k = true := by
  induction m with
  | nil => simp [keysOf, hasKey]
  | cons p ps ih =>
    simp only [keysOf, List.map_cons, List.mem_cons, hasKey,
      Bool.or_eq_true, beq_iff_eq] at *
    constructor
    · rintro (h | h)
      · left; exact h.symm
      · right; exact ih.mp h
    · rintro (h | h)
      · left; exact h.symm
      · right; exact ih.mpr h

theorem get?_del_self (m : List (String × α)) (k : String)
    (hnd : (keysOf m).Nodup) : get? (del m k) k = none := by
  induction m with
  | nil => rfl
  | cons p ps ih =>
    simp only [keysOf, List.map_cons, List.nodup_cons] at hnd
    by_cases hp : p.1 = k
    · simp only [del, hp, beq_self_eq_true, if_pos]
      subst hp
      have hnk : hasKey ps p.1 = false := by
        have : ¬ (p.1 ∈ keysOf ps) := by
          simpa [keysOf] using hnd.1
        rw [mem_keysOf_iff_hasKey] at this
        simpa using this
      rw [hasKey_eq_isSome_get?] at hnk
      cases hg : get? ps p.1 with
      | none => rfl
      | some v => rw [hg] at hnk; simp at hnk
    · have : (p.1 == k) = false := by simp [hp]
      simp only [del, this, Bool.false_eq_true, if_neg, not_false_iff, get?]
      exact ih hnd.2

theorem get?_del_ne (m : List (String × α)) (k k' : String)
    (hne : k' ≠ k) : get? (del m k) k' = get? m k' := by
  induction m with
  | nil => rfl
  | cons p ps ih =>
    by_cases hp : p.1 = k
    · have hpk : (p.1 == k) = true := by simp [hp]
      have hpk' : (p.1 == k') = false := by
        rw [hp]; exact beq_eq_false_iff_ne.mpr (Ne.symm hne)
      simp [del, get?, hpk, hpk']
    · have hpk : (p.1 == k) = false := by simp [hp]
      by_cases hp' : p.1 = k'
      · have hpk' : (p.1 == k') = true := by simp [hp']
        simp [del, get?, hpk, hpk']
      · have hpk' : (p.1 == k') = false := by simp [hp']
        simp [del, get?, hpk, hpk', ih]

theorem hasKey_del_self (m : List (String × α)) (k : String)
    (hnd : (keysOf m).Nodup) : hasKey (del m k) k = false := by
  rw [hasKey_eq_isSome_get?, get?_del_self m k hnd]
  rfl

theorem mem_of_mem_set {m : List (String × α)} {k : String} {v : α}
    {p : String × α} (h : p ∈ set m k v) : p ∈ m ∨ p = (k, v) := by
  induction m with
  | nil => simp only [set, List.mem_singleton] at h; right; exact h
  | cons q qs ih =>
    by_cases hq : q.1 = k
    · simp only [set, hq, beq_self_eq_true, if_pos, List.mem_cons] at h
      rcases h with h | h
      · right; exact h
      · left; exact List.mem_cons_of_mem _ h
    · have : (q.1 == k) = false := by simp [hq]
      simp only [set, this, Bool.false_eq_true, if_neg, not_false_iff,
        List.mem_cons] at h
      rcases h with h | h
      · left; simp [h]
      · rcases ih h with h' | h'
        · left; exact List.mem_cons_of_mem _ h'
        · right; exact h'

theorem mem_of_mem_del {m : List (String × α)} {k : String}
    {p : String × α} (h : p ∈ del m k) : p ∈ m := by
  induction m with
  | nil => exact absurd h (by simp [del])
  | cons q qs ih =>
    by_cases hq : q.1 = k
    · simp only [del, hq, beq_self_eq_true, if_pos] at h
      exact List.mem_cons_of_mem _ h
    · have : (q.1 == k) = false := by simp [hq]
      simp only [del, this, Bool.false_eq_true, if_neg, not_false_iff,
        List.mem_cons] at h
      rcases h with h | h
      · simp [h]
      · exact List.mem_cons_of_mem _ (ih h)

theorem get?_mem {m : List (String × α)} {k : String} {v : α}
    (h : get? m k = some v) : (k, v) ∈ m := by
  induction m with
  | nil => exact absurd h (by simp [get?])
  | cons p ps ih =>
    by_cases hp : p.1 = k
    · have hpk : (p.1 == k) = true := by simp [hp]
      simp only [get?, hpk, if_pos, Option.some.injEq] at h
      have hpe : p = (k, v) := by
        cases p
        simp only at hp h
        simp [hp, h]
      rw [← hpe]
      exact List.mem_cons_self _ _
    · have hpk : (p.1 == k) = false := by simp [hp]
      simp only [get?, hpk, Bool.false_eq_true, if_neg, not_false_iff] at h
      exact List.mem_cons_of_mem _ (ih h)

/-- Keys of the map after `set`: unchanged when the key was present,
the new key appended otherwise. -/
theorem keysOf_set (m : List (String × α)) (k : String) (v : α) :
    keysOf (set m k v) = if hasKey m k then keysOf m else keysOf m ++ [k] := by
  induction m with
  | nil => simp [set, keysOf, hasKey]
  | cons p ps ih =>
    by_cases hp : p.1 = k
    · simp [set, keysOf, hasKey, hp]
    · simp only [set, keysOf, hasKey, List.map_cons]
      have : (p.1 == k) = false := by simp [hp]
      simp only [this, Bool.false_eq_true, if_neg, not_false_iff,
        Bool.false_or, List.map_cons]
      unfold keysOf at ih
      rw [ih]
      by_cases hps : hasKey ps k <;> simp [hps]

theorem nodup_keysOf_set (m : List (String × α)) (k : String) (v : α)
    (hnd : (keysOf m).Nodup) : (keysOf (set m k v)).Nodup := by
  rw [keysOf_set]
  by_cases h : hasKey m k
  · simpa [h]
  · simp only [h, Bool.false_eq_true, if_neg, not_false_iff]
    rw [List.nodup_append]
    refine ⟨hnd, List.nodup_singleton k, ?_⟩
    intro a ha hb
    simp only [List.mem_singleton] at hb
    subst hb
    rw [mem_keysOf_iff_hasKey] at ha
    exact absurd ha (by simp [h])

theorem nodup_keysOf_del (m : List (String × α)) (k : String)
    (hnd : (keysOf m).Nodup) : (keysOf (del m k)).Nodup := by
  induction m with
  | nil => simp [del, keysOf]
  | cons p ps ih =>
    simp only [keysOf, List.map_cons, List.nodup_cons] at hnd
    by_cases hp : p.1 = k
    · simp only [del, hp, beq_self_eq_true, if_pos]
      exact hnd.2
    · have : (p.1 == k) = false := by simp [hp]
      simp only [del, this, Bool.false_eq_true, if_neg, not_false_iff,
        keysOf, List.map_cons, List.nodup_cons]
      refine ⟨?_, ih hnd.2⟩
      intro hmem
      exact hnd.1 (List.mem_map.mpr (by
        rcases List.mem_map.mp hmem with ⟨q, hq, hqe⟩
        exact ⟨q, mem_of_mem_del hq, hqe⟩))

end JsMap

/-! ## Sequential and parallel execution of callback lists -/

/-- The loop `for (const hook of hooksList) await Promise.resolve(hook(data))`
inside a `try` block: invokes the callbacks in list order, each awaited
before the next begins, stopping at the first one that throws or
rejects.  Returns the ordered trace of invoked callback ids and the
first failure, if any. -/
def runSeq : List Cb → List Nat × Option ThrownVal
  | [] => ([], none)
  | c :: cs =>
    match runCb c with
    | some v => ([c.id], some v)
    | none =>
      let r := runSeq cs
      (c.id :: r.1, r.2)

/-- The start phase `hooksList.map((hook) => Promise.resolve(hook(data)))`:
callbacks are invoked one by one while building the promise array; a
callback that throws synchronously aborts the map (later callbacks are
never invoked), while a rejecting promise is simply collected.  Returns
the trace of invoked ids and either the synchronously thrown value or
the list of settled promise outcomes. -/
def startAll : List Cb → List Nat × Except ThrownVal (List (Option ThrownVal))
  | [] => ([], .ok [])
  | c :: cs =>
    match c.behavior with
    | .syncThrow v => ([c.id], .error v)
    | .ok =>
      let r := startAll cs
      (c.id :: r.1, r.2.map (fun ps => none :: ps))
    | .asyncReject v =>
      let r := startAll cs
      (c.id :: r.1, r.2.map (fun ps => some v :: ps))

/-- `await Promise.all(promises)` over already-started promises: every
promise settles (none is cancelled); the aggregate rejects with the
first rejection if any, otherwise resolves. -/
def promiseAll (ps : List (Option ThrownVal)) : Option ThrownVal :=
  ps.findSome? (fun p => p)

/-! ## BasicRegistry: `createHookManager` (`src/core.ts`) -/

namespace Basic

/-- The state of a `createHookManager` instance: its `hooks` map. -/
abbrev State := List (String × Cb)

/-- `register(name, fn)` from `src/core.ts`: throws `DuplicateHookError`
when the name is taken (leaving the map unchanged), otherwise stores the
callback.  Returned as (result, state after the call). -/
def register (m : State) (name : String) (fn : Cb) :
    Except HookErrObj Unit × State :=
  if JsMap.hasKey m name then (.error (mkDuplicateHookError name), m)
  else (.ok (), JsMap.set m name fn)

/-- `unregister(name)` from `src/core.ts`: `hooks.delete(name)`. -/
def unregister (m : State) (name : String) : State × Bool :=
  (JsMap.del m name, JsMap.hasKey m name)

/-- `has(name)` from `src/core.ts`. -/
def hasHook (m : State) (name : String) : Bool :=
  JsMap.hasKey m name

/-- `list()` from `src/core.ts`. -/
def listHooks (m : State) : List String :=
  JsMap.keysOf m

/-- `on(name, data)` from `src/core.ts`: `HookNotFoundError` when the
name is unregistered; otherwise the callback is invoked and awaited,
with failures re-wrapped by the shared catch block.  Returns the trace
of invoked callback ids and the result. -/
def onHook (m : State) (name : String) :
    List Nat × Except HookErrObj Unit :=
  match JsMap.get? m name with
  | none => ([], .error (mkHookNotFoundError name))
  | some hook =>
    match runCb hook with
    | none => ([hook.id], .ok ())
    | some v => ([hook.id], .error (wrapCaught name v))

end Basic

/-! ## PriorityRegistry: `createPriorityHookManager` (`src/priorityHooks.ts`) -/

/-- A `{ priority, fn }` entry of the priority registry. -/
structure PHook where
  priority : Int
  fn : Cb
deriving DecidableEq, Repr

/-- The comparison underlying the JS stable sort
`hooksList.sort((a, b) => b.priority - a.priority)`: `a` may stay
before `b` exactly when `b.priority ≤ a.priority`. -/
def prioGE (a b : PHook) : Prop :=
  b.priority ≤ a.priority

instance : DecidableRel prioGE := fun a b =>
  inferInstanceAs (Decidable (b.priority ≤ a.priority))

/-- `Array.prototype.sort` with comparator
`(a, b) => b.priority - a.priority` is a stable sort by descending
priority; `List.insertionSort` with `prioGE` computes exactly that
stable permutation. -/
def sortByPriorityDesc (l : List PHook) : List PHook :=
  l.insertionSort prioGE

namespace Priority

/-- The state of a `createPriorityHookManager` instance. -/
abbrev State := List (String × List PHook)

/-- `register(name, fn, priority = 10)` from `src/priorityHooks.ts`:
ensures a list exists for the name, pushes `{ priority, fn }`, then
re-sorts the list in place by priority descending (stable). -/
def register (m : State) (name : String) (fn : Cb) (priority : Int) :
    State :=
  let m1 := if JsMap.hasKey m name then m else JsMap.set m name []
  let hooksList := (JsMap.get? m1 name).getD []
  JsMap.set m1 name (sortByPriorityDesc (hooksList ++ [⟨priority, fn⟩]))

/-- `unregister(name, fn?)` from `src/priorityHooks.ts`. -/
def unregister (m : State) (name : String) (fn : Option Cb) :
    State × Bool :=
  if ¬ JsMap.hasKey m name then (m, false)
  else
    match fn with
    | some f =>
      let hooksList := (JsMap.get? m name).getD []
      let newHooks := hooksList.filter (fun hook => hook.fn != f)
      let m1 := JsMap.set m name newHooks
      let m2 := if newHooks.length = 0 then JsMap.del m1 name else m1
      (m2, decide (hooksList.length ≠ newHooks.length))
    | none => (JsMap.del m name, JsMap.hasKey m name)

/-- `has(name)` from `src/priorityHooks.ts`: key present with a
non-empty list. -/
def hasHook (m : State) (name : String) : Bool :=
  JsMap.hasKey m name && ((JsMap.get? m name).getD []).length > 0

/-- `list()` from `src/priorityHooks.ts`. -/
def listHooks (m : State) : List String :=
  JsMap.keysOf m

/-- `on(name, data)` from `src/priorityHooks.ts`: `HookNotFoundError`
for an absent or empty list, otherwise the sequential fail-fast loop
with the shared catch block. -/
def onHook (m : State) (name : String) :
    List Nat × Except HookErrObj Unit :=
  if ¬ JsMap.hasKey m name ∨ ((JsMap.get? m name).getD []).length = 0 then
    ([], .error (mkHookNotFoundError name))
  else
    let hooksList := (JsMap.get? m name).getD []
    let r := runSeq (hooksList.map (·.fn))
    (r.1, match r.2 with
          | none => .ok ()
          | some v => .error (wrapCaught name v))

end Priority

/-! ## ParallelRegistry: `createParallelHookManager` (`src/parallelHooks.ts`) -/

namespace Parallel

/-- The state of a `createParallelHookManager` instance. -/
abbrev State := List (String × List Cb)

/-- `register(name, fn)` from `src/parallelHooks.ts`: ensures a list
exists and pushes the callback. -/
def register (m : State) (name : String) (fn : Cb) : State :=
  let m1 := if JsMap.hasKey m name then m else JsMap.set m name []
  let hooksList := (JsMap.get? m1 name).getD []
  JsMap.set m1 name (hooksList ++ [fn])

/-- `unregister(name, fn?)` from `src/parallelHooks.ts`. -/
def unregister (m : State) (name : String) (fn : Option Cb) :
    State × Bool :=
  if ¬ JsMap.hasKey m name then (m, false)
  else
    match fn with
    | some f =>
      let hooksList := (JsMap.get? m name).getD []
      let newHooks := hooksList.filter (fun hook => hook != f)
      let m1 := JsMap.set m name newHooks
      let m2 := if newHooks.length = 0 then JsMap.del m1 name else m1
      (m2, decide (hooksList.length ≠ newHooks.length))
    | none => (JsMap.del m name, JsMap.hasKey m name)

/-- `has(name)` from `src/parallelHooks.ts`. -/
def hasHook (m : State) (name : String) : Bool :=
  JsMap.hasKey m name && ((JsMap.get? m name).getD []).length > 0

/-- `list()` from `src/parallelHooks.ts`. -/
def listHooks (m : State) : List String :=
  JsMap.keysOf m

/-- `on(name, data, parallel = false)` from `src/parallelHooks.ts`:
`HookNotFoundError` for an absent or empty list; sequential fail-fast
loop when `parallel` is false; `Promise.all` over the mapped callback
array when `parallel` is true.  Either failure is wrapped by the shared
catch block. -/
def onHook (m : State) (name : String) (parallel : Bool) :
    List Nat × Except HookErrObj Unit :=
  if ¬ JsMap.hasKey m name ∨ ((JsMap.get? m name).getD []).length = 0 then
    ([], .error (mkHookNotFoundError name))
  else
    let hooksList := (JsMap.get? m name).getD []
    if parallel then
      let r := startAll hooksList
      match r.2 with
      | .error v => (r.1, .error (wrapCaught name v))
      | .ok ps =>
        match promiseAll ps with
        | some v => (r.1, .error (wrapCaught name v))
        | none => (r.1, .ok ())
    else
      let r := runSeq hooksList
      (r.1, match r.2 with
            | none => .ok ()
            | some v => .error (wrapCaught name v))

end Parallel

/-! ## ScopedRegistry: `createScopedHookManager` (`src/scopedHooks.ts`) -/

/-- `name.startsWith(pre)` (JS): `pre` is a leading substring of
`name`, modelled on the character sequences. -/
def jsStartsWith (s pre : String) : Bool :=
  pre.data.isPrefixOf s.data

namespace Scoped

/-- `register(name, fn)` from `src/scopedHooks.ts`: delegates to the
inner `createHookManager` under the prefixed name. -/
def register (pfx : String) (m : Basic.State) (name : String) (fn : Cb) :
    Except HookErrObj Unit × Basic.State :=
  Basic.register m (pfx ++ ":" ++ name) fn

/-- `unregister(name)` from `src/scopedHooks.ts`. -/
def unregister (pfx : String) (m : Basic.State) (name : String) :
    Basic.State × Bool :=
  Basic.unregister m (pfx ++ ":" ++ name)

/-- `has(name)` from `src/scopedHooks.ts`. -/
def hasHook (pfx : String) (m : Basic.State) (name : String) : Bool :=
  Basic.hasHook m (pfx ++ ":" ++ name)

/-- `list()` from `src/scopedHooks.ts`: the delegate's names filtered to
those starting with `prefix + ":"`, each with
`name.substring(prefix.length + 1)` applied. -/
def listHooks (pfx : String) (m : Basic.State) : List String :=
  ((Basic.listHooks m).filter
      (fun n => jsStartsWith n (pfx ++ ":"))).map
    (fun n => n.drop (pfx.length + 1))

/-- `on(name, data)` from `src/scopedHooks.ts`. -/
def onHook (pfx : String) (m : Basic.State) (name : String) :
    List Nat × Except HookErrObj Unit :=
  Basic.onHook m (pfx ++ ":" ++ name)

end Scoped

/-! ## Lemmas on the runners -/

theorem runSeq_all_ok {l : List Cb} (h : ∀ c ∈ l, runCb c = none) :
    runSeq l = (l.map (·.id), none) := by
  induction l with
  | nil => rfl
  | cons c cs ih =>
    have hc : runCb c = none := h c (List.mem_cons_self _ _)
    have ih' := ih (fun x hx => h x (List.mem_cons_of_mem _ hx))
    simp [runSeq, hc, ih']

theorem runSeq_first_fail {pre : List Cb} {c : Cb} {post : List Cb}
    {v : ThrownVal} (hpre : ∀ x ∈ pre, runCb x = none)
    (hc : runCb c = some v) :
    runSeq (pre ++ c :: post) = (pre.map (·.id) ++ [c.id], some v) := by
  induction pre with
  | nil => simp [runSeq, hc]
  | cons x xs ih =>
    have hx : runCb x = none := hpre x (List.mem_cons_self _ _)
    have ih' := ih (fun y hy => hpre y (List.mem_cons_of_mem _ hy))
    simp [runSeq, hx, ih']

/-- A callback never throws synchronously (its failures, if any, are
promise rejections). -/
def NoSyncThrow (c : Cb) : Prop :=
  ∀ v, c.behavior ≠ CbBehavior.syncThrow v

instance (c : Cb) : Decidable (NoSyncThrow c) :=
  match hb : c.behavior with
  | .ok => isTrue (fun v h => by rw [hb] at h; exact CbBehavior.noConfusion h)
  | .syncThrow w => isFalse (fun hn => hn w hb)
  | .asyncReject v => isTrue (fun w h => by
      rw [hb] at h
      exact CbBehavior.noConfusion h)

theorem startAll_of_noSyncThrow {l : List Cb}
    (h : ∀ c ∈ l, NoSyncThrow c) :
    startAll l = (l.map (·.id), .ok (l.map runCb)) := by
  induction l with
  | nil => rfl
  | cons c cs ih =>
    have ih' := ih (fun x hx => h x (List.mem_cons_of_mem _ hx))
    cases hb : c.behavior with
    | syncThrow v => exact absurd hb (h c (List.mem_cons_self _ _) v)
    | ok => simp [startAll, hb, ih', runCb, Except.map]
    | asyncReject v => simp [startAll, hb, ih', runCb, Except.map]

theorem startAll_error_exists_fail {l : List Cb} {v : ThrownVal}
    (h : (startAll l).2 = .error v) : ∃ c ∈ l, runCb c ≠ none := by
  induction l with
  | nil => exact absurd h (by simp [startAll])
  | cons c cs ih =>
    cases hb : c.behavior with
    | syncThrow w =>
      exact ⟨c, List.mem_cons_self _ _, by simp [runCb, hb]⟩
    | ok =>
      simp only [startAll, hb] at h
      cases hr : (startAll cs).2 with
      | ok ps => rw [hr] at h; simp [Except.map] at h
      | error w =>
        rw [hr] at h
        have hw : w = v := by simpa [Except.map] using h
        subst hw
        rcases ih hr with ⟨x, hx, hfail⟩
        exact ⟨x, List.mem_cons_of_mem _ hx, hfail⟩
    | asyncReject w =>
      exact ⟨c, List.mem_cons_self _ _, by simp [runCb, hb]⟩

theorem startAll_ok_imp_settles {l : List Cb} {ps : List (Option ThrownVal)}
    (h : (startAll l).2 = .ok ps) : ps = l.map runCb := by
  induction l generalizing ps with
  | nil => simp [startAll] at h; simp [h]
  | cons c cs ih =>
    cases hb : c.behavior with
    | syncThrow w => simp [startAll, hb] at h
    | ok =>
      simp only [startAll, hb] at h
      cases hr : (startAll cs).2 with
      | error w => rw [hr] at h; simp [Except.map] at h
      | ok qs =>
        rw [hr] at h
        have hq : none :: qs = ps := by simpa [Except.map] using h
        rw [← hq]
        simp [List.map_cons, runCb, hb, ih hr]
    | asyncReject w =>
      simp only [startAll, hb] at h
      cases hr : (startAll cs).2 with
      | error u => rw [hr] at h; simp [Except.map] at h
      | ok qs =>
        rw [hr] at h
        have hq : some w :: qs = ps := by simpa [Except.map] using h
        rw [← hq]
        simp [List.map_cons, runCb, hb, ih hr]

theorem promiseAll_map_runCb_eq_none_iff (l : List Cb) :
    promiseAll (l.map runCb) = none ↔ ∀ c ∈ l, runCb c = none := by
  unfold promiseAll
  rw [List.findSome?_eq_none_iff]
  simp

/-! ## Lemmas on the stable descending sort -/

instance : IsTotal PHook prioGE :=
  ⟨fun a b => le_total b.priority a.priority⟩

instance : IsTrans PHook prioGE :=
  ⟨fun _ _ _ h1 h2 => le_trans h2 h1⟩

theorem sorted_sortByPriorityDesc (l : List PHook) :
    (sortByPriorityDesc l).Sorted prioGE :=
  List.sorted_insertionSort prioGE l

theorem length_sortByPriorityDesc (l : List PHook) :
    (sortByPriorityDesc l).length = l.length :=
  List.length_insertionSort prioGE l

theorem sortByPriorityDesc_ne_nil {l : List PHook} (h : l ≠ []) :
    sortByPriorityDesc l ≠ [] := by
  intro hc
  apply h
  have := length_sortByPriorityDesc l
  rw [hc] at this
  exact List.length_eq_zero.mp this.symm

theorem mem_sortByPriorityDesc (l : List PHook) (x : PHook) :
    x ∈ sortByPriorityDesc l ↔ x ∈ l :=
  List.mem_insertionSort prioGE

/-- Stability of the sort: the subsequence of entries at any fixed
priority is untouched. -/
theorem filter_sortByPriorityDesc (l : List PHook) (p : Int) :
    (sortByPriorityDesc l).filter (fun e => e.priority == p) =
      l.filter (fun e => e.priority == p) := by
  have hpair : (l.filter (fun e => e.priority == p)).Pairwise prioGE := by
    apply List.pairwise_of_forall_mem_list
    intro a ha b hb
    have ha' : a.priority = p := by
      have := List.of_mem_filter ha
      simpa using this
    have hb' : b.priority = p := by
      have := List.of_mem_filter hb
      simpa using this
    unfold prioGE
    rw [ha', hb']
  have hsub : List.Sublist (l.filter (fun e => e.priority == p))
      (sortByPriorityDesc l) :=
    List.sublist_insertionSort hpair (List.filter_sublist l)
  have hsub2 : List.Sublist (l.filter (fun e => e.priority == p))
      ((sortByPriorityDesc l).filter (fun e => e.priority == p)) := by
    have hf := hsub.filter (fun e => e.priority == p)
    rwa [List.filter_filter, show
      (fun e : PHook => (e.priority == p) && (e.priority == p)) =
        (fun e : PHook => e.priority == p) from funext (fun e => by
          cases h : (e.priority == p) <;> simp [h])] at hf
  have hperm : List.Perm
      ((sortByPriorityDesc l).filter (fun e => e.priority == p))
      (l.filter (fun e => e.priority == p)) :=
    (List.perm_insertionSort prioGE l).filter _
  exact (hsub2.eq_of_length hperm.length_eq.symm).symm

/-! ## Characterizing the state transitions -/

namespace JsMap

theorem get?_eq_none_of_not_hasKey {α : Type} {m : List (String × α)}
    {k : String} (h : hasKey m k = false) : get? m k = none := by
  rw [hasKey_eq_isSome_get?] at h
  cases hg : get? m k with
  | none => rfl
  | some v => rw [hg] at h; simp at h

theorem hasKey_of_get?_some {α : Type} {m : List (String × α)}
    {k : String} {v : α} (h : get? m k = some v) : hasKey m k = true := by
  rw [hasKey_eq_isSome_get?, h]
  rfl

end JsMap

namespace Priority

/-- The callback list currently stored under `name` (empty when the
name is absent, matching the registry's treatment of absent names). -/
def stored (m : State) (name : String) : List PHook :=
  (JsMap.get? m name).getD []

theorem stored_m1 (m : State) (name : String) :
    (JsMap.get? (if JsMap.hasKey m name then m
        else JsMap.set m name []) name).getD [] = stored m name := by
  by_cases h : JsMap.hasKey m name
  · simp [h, stored]
  · have hf : JsMap.hasKey m name = false := by simpa using h
    have hn : JsMap.get? m name = none := JsMap.get?_eq_none_of_not_hasKey hf
    simp [hf, stored, hn, JsMap.get?_set_self]

theorem get?_register_self (m : State) (name : String) (fn : Cb)
    (priority : Int) :
    JsMap.get? (register m name fn priority) name =
      some (sortByPriorityDesc (stored m name ++ [⟨priority, fn⟩])) := by
  unfold register
  rw [JsMap.get?_set_self, stored_m1]

theorem get?_register_ne (m : State) (name k : String) (fn : Cb)
    (priority : Int) (hne : k ≠ name) :
    JsMap.get? (register m name fn priority) k = JsMap.get? m k := by
  unfold register
  rw [JsMap.get?_set_ne _ _ _ _ hne]
  by_cases h : JsMap.hasKey m name
  · simp [h]
  · have hf : JsMap.hasKey m name = false := by simpa using h
    simp [hf, JsMap.get?_set_ne _ _ _ _ hne]

theorem stored_register_self (m : State) (name : String) (fn : Cb)
    (priority : Int) :
    stored (register m name fn priority) name =
      sortByPriorityDesc (stored m name ++ [⟨priority, fn⟩]) := by
  unfold stored
  rw [get?_register_self]
  rfl

theorem stored_register_ne (m : State) (name k : String) (fn : Cb)
    (priority : Int) (hne : k ≠ name) :
    stored (register m name fn priority) k = stored m k := by
  unfold stored
  rw [get?_register_ne _ _ _ _ _ hne]

end Priority

namespace Parallel

/-- The callback list currently stored under `name` (empty when the
name is absent). -/
def stored (m : State) (name : String) : List Cb :=
  (JsMap.get? m name).getD []

theorem stored_m1_par (m : State) (name : String) :
    (JsMap.get? (if JsMap.hasKey m name then m
        else JsMap.set m name []) name).getD [] = stored m name := by
  by_cases h : JsMap.hasKey m name
  · simp [h, stored]
  · have hf : JsMap.hasKey m name = false := by simpa using h
    have hn : JsMap.get? m name = none := JsMap.get?_eq_none_of_not_hasKey hf
    simp [hf, stored, hn, JsMap.get?_set_self]

theorem get?_register_self_par (m : State) (name : String) (fn : Cb) :
    JsMap.get? (register m name fn) name = some (stored m name ++ [fn]) := by
  unfold register
  rw [JsMap.get?_set_self, stored_m1_par]

theorem get?_register_ne_par (m : State) (name k : String) (fn : Cb)
    (hne : k ≠ name) :
    JsMap.get? (register m name fn) k = JsMap.get? m k := by
  unfold register
  rw [JsMap.get?_set_ne _ _ _ _ hne]
  by_cases h : JsMap.hasKey m name
  · simp [h]
  · have hf : JsMap.hasKey m name = false := by simpa using h
    simp [hf, JsMap.get?_set_ne _ _ _ _ hne]

end Parallel

/-! ## Registration sequences on the priority registry -/

/-- One `register(name, fn, priority)` call on the priority registry;
`fnId` is the identity of the supplied callback.  Claim C1 concerns
normally-completing callbacks, so all behaviours are `ok`. -/
structure PReg where
  name : String
  priority : Int
  fnId : Nat
deriving DecidableEq, Repr

/-- The `{ priority, fn }` entry such a registration pushes. -/
def PReg.entry (r : PReg) : PHook :=
  ⟨r.priority, ⟨r.fnId, .ok⟩⟩

/-- Run a sequence of `register` calls on a fresh priority registry. -/
def Priority.registerAll (regs : List PReg) : Priority.State :=
  regs.foldl
    (fun m r => Priority.register m r.name ⟨r.fnId, .ok⟩ r.priority) []

/-- The entries pushed under `name`, in registration order. -/
def entriesFor (name : String) (regs : List PReg) : List PHook :=
  (regs.filter (fun r => r.name == name)).map PReg.entry

/-- The push-then-stable-resort step a single `register` call performs
on the stored list. -/
def pushSort (l : List PHook) (e : PHook) : List PHook :=
  sortByPriorityDesc (l ++ [e])

theorem stored_foldl_register (regs : List PReg) (m : Priority.State)
    (name : String) :
    Priority.stored
        (regs.foldl
          (fun m r => Priority.register m r.name ⟨r.fnId, .ok⟩ r.priority) m)
        name =
      (entriesFor name regs).foldl pushSort (Priority.stored m name) := by
  induction regs generalizing m with
  | nil => simp [entriesFor]
  | cons r rs ih =>
    by_cases h : r.name = name
    · simp only [List.foldl_cons]
      rw [ih]
      have hent : entriesFor name (r :: rs) =
          r.entry :: entriesFor name rs := by
        simp [entriesFor, List.filter_cons, h]
      rw [hent, List.foldl_cons]
      congr 1
      rw [← h]
      rw [Priority.stored_register_self]
      rfl
    · simp only [List.foldl_cons]
      rw [ih]
      have hent : entriesFor name (r :: rs) = entriesFor name rs := by
        have : (r.name == name) = false := by simp [h]
        simp [entriesFor, List.filter_cons, this]
      rw [hent, Priority.stored_register_ne _ _ _ _ _ (fun he => h he.symm)]

theorem sorted_foldl_pushSort (es : List PHook) (acc : List PHook)
    (hacc : acc.Sorted prioGE) : (es.foldl pushSort acc).Sorted prioGE := by
  induction es generalizing acc with
  | nil => exact hacc
  | cons e es ih => exact ih _ (sorted_sortByPriorityDesc _)

theorem filter_foldl_pushSort (es acc : List PHook) (p : Int) :
    (es.foldl pushSort acc).filter (fun e => e.priority == p) =
      acc.filter (fun e => e.priority == p) ++
        es.filter (fun e => e.priority == p) := by
  induction es generalizing acc with
  | nil => simp
  | cons e es ih =>
    simp only [List.foldl_cons]
    rw [ih]
    unfold pushSort
    rw [filter_sortByPriorityDesc, List.filter_append]
    rw [List.filter_cons]
    cases he : (e.priority == p) <;>
      simp [List.filter_cons, he, List.append_assoc]

theorem length_foldl_pushSort (es acc : List PHook) :
    (es.foldl pushSort acc).length = acc.length + es.length := by
  induction es generalizing acc with
  | nil => simp
  | cons e es ih =>
    simp only [List.foldl_cons]
    rw [ih]
    unfold pushSort
    rw [length_sortByPriorityDesc]
    simp only [List.length_append, List.length_cons, List.length_nil]
    omega

theorem mem_foldl_pushSort {es acc : List PHook} {x : PHook}
    (h : x ∈ es.foldl pushSort acc) : x ∈ acc ∨ x ∈ es := by
  induction es generalizing acc with
  | nil => left; exact h
  | cons e es ih =>
    rcases ih h with h' | h'
    · rw [pushSort, mem_sortByPriorityDesc] at h'
      rcases List.mem_append.mp h' with h'' | h''
      · left; exact h''
      · right; simp only [List.mem_singleton] at h''; simp [h'']
    · right; exact List.mem_cons_of_mem _ h'

theorem Priority.onHook_trace_all_ok (m : Priority.State) (name : String)
    (hl : Priority.stored m name ≠ [])
    (hok : ∀ e ∈ Priority.stored m name, runCb e.fn = none) :
    Priority.onHook m name =
      ((Priority.stored m name).map (fun e => e.fn.id), .ok ()) := by
  have hk : JsMap.hasKey m name = true := by
    unfold Priority.stored at hl
    cases hg : JsMap.get? m name with
    | none => rw [hg] at hl; simp at hl
    | some l => exact JsMap.hasKey_of_get?_some hg
  have hlen : ¬ ((JsMap.get? m name).getD []).length = 0 := by
    intro hc
    exact hl (List.length_eq_zero.mp hc)
  unfold onHook
  rw [if_neg (by simp [hk, hlen])]
  have hrun : runSeq (((JsMap.get? m name).getD []).map (·.fn)) =
      ((((JsMap.get? m name).getD []).map (·.fn)).map (·.id), none) :=
    runSeq_all_ok (by
      intro c hc
      rcases List.mem_map.mp hc with ⟨e, he, hce⟩
      rw [← hce]
      exact hok e he)
  simp only [hrun]
  unfold Priority.stored
  rw [List.map_map]
  rfl

theorem entriesFor_all_ok (name : String) (regs : List PReg) :
    ∀ e ∈ entriesFor name regs, runCb e.fn = none := by
  intro e he
  rcases List.mem_map.mp he with ⟨r, _, hre⟩
  rw [← hre]
  rfl

/-- **C1.** For PriorityRegistry, after any sequence of
`register(name, fn, priority)` calls, `on(name)` invokes the registered
callbacks in descending-priority order (the stored list is sorted by
`prioGE`), callbacks of equal priority in registration order (the
stored list filtered to any single priority equals the registration
subsequence at that priority), and the invocation trace is exactly the
stored order; in particular registrations under one name with
priorities 5, 20, 10 in that order are invoked in the order
[20, 10, 5]. -/
theorem priority_on_descending_stable_order (regs : List PReg)
    (name : String) :
    (Priority.stored (Priority.registerAll regs) name).Sorted prioGE ∧
    (∀ p : Int,
      (Priority.stored (Priority.registerAll regs) name).filter
          (fun e => e.priority == p) =
        (entriesFor name regs).filter (fun e => e.priority == p)) ∧
    (Priority.stored (Priority.registerAll regs) name ≠ [] →
      (Priority.onHook (Priority.registerAll regs) name).1 =
        (Priority.stored (Priority.registerAll regs) name).map
          (fun e => e.fn.id)) ∧
    (Priority.onHook (Priority.registerAll
        [⟨"init", 5, 0⟩, ⟨"init", 20, 1⟩, ⟨"init", 10, 2⟩]) "init").1 =
      [1, 2, 0] := by
  have hst : Priority.stored (Priority.registerAll regs) name =
      (entriesFor name regs).foldl pushSort [] := by
    unfold Priority.registerAll
    rw [stored_foldl_register]
    rfl
  refine ⟨?_, ?_, ?_, by decide⟩
  · rw [hst]
    exact sorted_foldl_pushSort _ _ List.sorted_nil
  · intro p
    rw [hst, filter_foldl_pushSort]
    simp
  · intro hne
    have hok : ∀ e ∈ Priority.stored (Priority.registerAll regs) name,
        runCb e.fn = none := by
      intro e he
      rw [hst] at he
      rcases mem_foldl_pushSort he with h | h
      · exact absurd h (by simp)
      · exact entriesFor_all_ok name regs e h
    rw [Priority.onHook_trace_all_ok _ _ hne hok]

/-- Witness for C1: a concrete two-registration instance discharging
the nonemptiness hypothesis of the trace conjunct. -/
theorem priority_on_descending_stable_order_witness :
    (Priority.onHook (Priority.registerAll
        [⟨"a", 5, 0⟩, ⟨"a", 20, 1⟩]) "a").1 =
      (Priority.stored (Priority.registerAll
        [⟨"a", 5, 0⟩, ⟨"a", 20, 1⟩]) "a").map (fun e => e.fn.id) :=
  (priority_on_descending_stable_order
    [⟨"a", 5, 0⟩, ⟨"a", 20, 1⟩] "a").2.2.1 (by decide)

/-- **C2.** For BasicRegistry, `register(name, fn)` fails with
`DuplicateHookError` whenever `name` already has a callback, the map is
left unchanged, and the first-registered callback is the one a
subsequent `on(name)` invokes. -/
theorem basic_register_duplicate_rejected (m : Basic.State) (name : String)
    (c fn' : Cb) (hreg : JsMap.get? m name = some c) :
    Basic.register m name fn' = (.error (mkDuplicateHookError name), m) ∧
    (Basic.onHook m name).1 = [c.id] := by
  have hk : JsMap.hasKey m name = true := JsMap.hasKey_of_get?_some hreg
  constructor
  · unfold Basic.register
    rw [if_pos hk]
  · unfold Basic.onHook
    rw [hreg]
    cases hrc : runCb c <;> simp [hrc]

/-- Witness for C2 at a concrete one-entry registry. -/
theorem basic_register_duplicate_rejected_witness :
    Basic.register [("x", ⟨0, .ok⟩)] "x" ⟨1, .ok⟩ =
      (.error (mkDuplicateHookError "x"), [("x", ⟨0, .ok⟩)]) ∧
    (Basic.onHook [("x", ⟨0, .ok⟩)] "x").1 = [0] :=
  basic_register_duplicate_rejected [("x", ⟨0, .ok⟩)] "x" ⟨0, .ok⟩ ⟨1, .ok⟩
    (by decide)

theorem substrOf_append_mid (a x y : String) : SubstrOf a (x ++ a ++ y) := by
  refine ⟨x.data, y.data, ?_⟩
  rw [String.data_append, String.data_append]

/-- **C3.** Every registry variant wraps a callback failure through the
same catch block: an error-like thrown value yields an ExecutionError
whose message contains both the hook name and the original message; a
non-error thrown value yields the generic unknown-error message, which
contains the hook name and is independent of the thrown value; for the
concrete example, `Error("boom")` under "x" gives a message containing
"x" and "boom", while a non-error "boom" gives a message not containing
"boom". -/
theorem on_wraps_callback_failures :
    (∀ hookName msg : String,
      SubstrOf hookName (wrapCaught hookName (.errorVal msg)).message ∧
      SubstrOf msg (wrapCaught hookName (.errorVal msg)).message) ∧
    (∀ hookName v w : String,
      wrapCaught hookName (.nonErrorVal v) =
        wrapCaught hookName (.nonErrorVal w)) ∧
    (∀ hookName v : String,
      SubstrOf hookName (wrapCaught hookName (.nonErrorVal v)).message) ∧
    (∀ (m : Basic.State) (name : String) (c : Cb) (v : ThrownVal),
      JsMap.get? m name = some c → runCb c = some v →
      Basic.onHook m name = ([c.id], .error (wrapCaught name v))) ∧
    (∀ (pfx : String) (m : Basic.State) (name : String) (c : Cb)
        (v : ThrownVal),
      JsMap.get? m (pfx ++ ":" ++ name) = some c → runCb c = some v →
      Scoped.onHook pfx m name =
        ([c.id], .error (wrapCaught (pfx ++ ":" ++ name) v))) ∧
    (∀ (m : Priority.State) (name : String) (p : Int) (c : Cb)
        (v : ThrownVal),
      JsMap.get? m name = some [⟨p, c⟩] → runCb c = some v →
      Priority.onHook m name = ([c.id], .error (wrapCaught name v))) ∧
    (∀ (m : Parallel.State) (name : String) (c : Cb) (v : ThrownVal)
        (par : Bool),
      JsMap.get? m name = some [c] → runCb c = some v →
      (Parallel.onHook m name par).2 = .error (wrapCaught name v)) ∧
    (SubstrOf "x" (wrapCaught "x" (.errorVal "boom")).message ∧
     SubstrOf "boom" (wrapCaught "x" (.errorVal "boom")).message ∧
     ¬ SubstrOf "boom" (wrapCaught "x" (.nonErrorVal "boom")).message) := by
  refine ⟨?_, ?_, ?_, ?_, ?_, ?_, ?_, by decide⟩
  · intro hookName msg
    constructor
    · have hmsg : (wrapCaught hookName (.errorVal msg)).message =
          "Error in hook \"" ++ hookName ++ ("\": " ++ msg) := by
        show "Error in hook \"" ++ hookName ++ "\": " ++ msg = _
        rw [String.append_assoc]
      rw [hmsg]
      exact substrOf_append_mid hookName "Error in hook \"" ("\": " ++ msg)
    · have hmsg : (wrapCaught hookName (.errorVal msg)).message =
          ("Error in hook \"" ++ hookName ++ "\": ") ++ msg ++ "" := by
        show "Error in hook \"" ++ hookName ++ "\": " ++ msg = _
        rw [String.append_empty]
      rw [hmsg]
      exact substrOf_append_mid msg
        ("Error in hook \"" ++ hookName ++ "\": ") ""
  · intro hookName v w
    rfl
  · intro hookName v
    exact substrOf_append_mid hookName "Unknown error in hook \"" "\""
  · intro m name c v hget hrun
    unfold Basic.onHook
    rw [hget]
    simp [hrun]
  · intro pfx m name c v hget hrun
    unfold Scoped.onHook Basic.onHook
    rw [hget]
    simp [hrun]
  · intro m name p c v hget hrun
    have hk : JsMap.hasKey m name = true := JsMap.hasKey_of_get?_some hget
    unfold Priority.onHook
    rw [if_neg (by simp [hk, hget])]
    rw [hget]
    simp [runSeq, hrun]
  · intro m name c v par hget hrun
    have hk : JsMap.hasKey m name = true := JsMap.hasKey_of_get?_some hget
    unfold Parallel.onHook
    rw [if_neg (by simp [hk, hget])]
    rw [hget]
    cases par with
    | false => simp [runSeq, hrun]
    | true =>
      cases hb : c.behavior with
      | ok => rw [runCb, hb] at hrun; simp at hrun
      | syncThrow w =>
        have hv : w = v := by rw [runCb, hb] at hrun; simpa using hrun
        subst hv
        simp [startAll, hb]
      | asyncReject w =>
        have hv : w = v := by rw [runCb, hb] at hrun; simpa using hrun
        subst hv
        simp [startAll, hb, promiseAll, Except.map]

/-- Witness for C3 at a concrete failing callback in each variant. -/
theorem on_wraps_callback_failures_witness :
    Basic.onHook [("x", ⟨0, .syncThrow (.errorVal "boom")⟩)] "x" =
      ([0], .error (wrapCaught "x" (.errorVal "boom"))) :=
  on_wraps_callback_failures.2.2.2.1
    [("x", ⟨0, .syncThrow (.errorVal "boom")⟩)] "x"
    ⟨0, .syncThrow (.errorVal "boom")⟩ (.errorVal "boom")
    (by decide) (by decide)

/-! ## C4: the error family -/

theorem instanceOf_wrapCaught (n : String) (v : ThrownVal) :
    instanceOf (wrapCaught n v).cls .hookErrorCls = true := by
  cases v <;> rfl

theorem basic_onHook_err_instanceOf {m : Basic.State} {name : String}
    {e : HookErrObj} (h : (Basic.onHook m name).2 = .error e) :
    instanceOf e.cls .hookErrorCls = true := by
  unfold Basic.onHook at h
  cases hg : JsMap.get? m name with
  | none =>
    rw [hg] at h
    simp only [Except.error.injEq] at h
    rw [← h]
    rfl
  | some hook =>
    rw [hg] at h
    cases hr : runCb hook with
    | none => simp [hr] at h
    | some v =>
      simp only [hr, Except.error.injEq] at h
      rw [← h]
      exact instanceOf_wrapCaught name v

theorem priority_onHook_err_instanceOf {m : Priority.State} {name : String}
    {e : HookErrObj} (h : (Priority.onHook m name).2 = .error e) :
    instanceOf e.cls .hookErrorCls = true := by
  unfold Priority.onHook at h
  by_cases hc : ¬ JsMap.hasKey m name = true ∨
      ((JsMap.get? m name).getD []).length = 0
  · rw [if_pos hc] at h
    simp only [Except.error.injEq] at h
    rw [← h]
    rfl
  · rw [if_neg hc] at h
    simp only at h
    cases hr : (runSeq (((JsMap.get? m name).getD []).map (·.fn))).2 with
    | none => rw [hr] at h; simp at h
    | some v =>
      rw [hr] at h
      simp only [Except.error.injEq] at h
      rw [← h]
      exact instanceOf_wrapCaught name v

theorem parallel_onHook_err_instanceOf {m : Parallel.State} {name : String}
    {par : Bool} {e : HookErrObj}
    (h : (Parallel.onHook m name par).2 = .error e) :
    instanceOf e.cls .hookErrorCls = true := by
  unfold Parallel.onHook at h
  by_cases hc : ¬ JsMap.hasKey m name = true ∨
      ((JsMap.get? m name).getD []).length = 0
  · rw [if_pos hc] at h
    simp only [Except.error.injEq] at h
    rw [← h]
    rfl
  · rw [if_neg hc] at h
    cases par with
    | false =>
      simp only [Bool.false_eq_true, if_neg, not_false_iff] at h
      cases hr : (runSeq ((JsMap.get? m name).getD [])).2 with
      | none => rw [hr] at h; simp at h
      | some v =>
        rw [hr] at h
        simp only [Except.error.injEq] at h
        rw [← h]
        exact instanceOf_wrapCaught name v
    | true =>
      simp only [if_pos] at h
      cases hs : (startAll ((JsMap.get? m name).getD [])).2 with
      | error v =>
        rw [hs] at h
        simp only [Except.error.injEq] at h
        rw [← h]
        exact instanceOf_wrapCaught name v
      | ok ps =>
        rw [hs] at h
        cases hp : promiseAll ps with
        | none => simp [hp] at h
        | some v =>
          simp only [hp, Except.error.injEq] at h
          subst h
          exact instanceOf_wrapCaught name v

/-- **C4.** Every error any registry operation raises is an instance of
the common base class `HookError` (catch broadly), and the three error
kinds carry pairwise-distinct constructor classes and `name` tags
(distinguish narrowly), with both specialized classes instances of the
base. -/
theorem errors_form_hookError_family :
    (∀ (m : Basic.State) (name : String) (fn : Cb) (e : HookErrObj),
      (Basic.register m name fn).1 = .error e →
      instanceOf e.cls .hookErrorCls = true) ∧
    (∀ (m : Basic.State) (name : String) (e : HookErrObj),
      (Basic.onHook m name).2 = .error e →
      instanceOf e.cls .hookErrorCls = true) ∧
    (∀ (m : Priority.State) (name : String) (e : HookErrObj),
      (Priority.onHook m name).2 = .error e →
      instanceOf e.cls .hookErrorCls = true) ∧
    (∀ (m : Parallel.State) (name : String) (par : Bool) (e : HookErrObj),
      (Parallel.onHook m name par).2 = .error e →
      instanceOf e.cls .hookErrorCls = true) ∧
    (∀ (pfx : String) (m : Basic.State) (name : String) (fn : Cb)
        (e : HookErrObj),
      (Scoped.register pfx m name fn).1 = .error e →
      instanceOf e.cls .hookErrorCls = true) ∧
    (∀ (pfx : String) (m : Basic.State) (name : String) (e : HookErrObj),
      (Scoped.onHook pfx m name).2 = .error e →
      instanceOf e.cls .hookErrorCls = true) ∧
    ((mkHookError "m").cls ≠ (mkHookNotFoundError "a").cls ∧
     (mkHookError "m").cls ≠ (mkDuplicateHookError "a").cls ∧
     (mkHookNotFoundError "a").cls ≠ (mkDuplicateHookError "a").cls ∧
     (mkHookError "m").name ≠ (mkHookNotFoundError "a").name ∧
     (mkHookError "m").name ≠ (mkDuplicateHookError "a").name ∧
     (mkHookNotFoundError "a").name ≠ (mkDuplicateHookError "a").name ∧
     instanceOf (mkHookNotFoundError "a").cls .hookErrorCls = true ∧
     instanceOf (mkDuplicateHookError "a").cls .hookErrorCls = true ∧
     instanceOf (mkHookError "m").cls .hookErrorCls = true) := by
  refine ⟨?_, ?_, ?_, ?_, ?_, ?_, by decide⟩
  · intro m name fn e h
    unfold Basic.register at h
    by_cases hk : JsMap.hasKey m name = true
    · rw [if_pos hk] at h
      simp only [Except.error.injEq] at h
      rw [← h]
      rfl
    · rw [if_neg hk] at h
      simp at h
  · intro m name e h
    exact basic_onHook_err_instanceOf h
  · intro m name e h
    exact priority_onHook_err_instanceOf h
  · intro m name par e h
    exact parallel_onHook_err_instanceOf h
  · intro pfx m name fn e h
    unfold Scoped.register Basic.register at h
    by_cases hk : JsMap.hasKey m (pfx ++ ":" ++ name) = true
    · rw [if_pos hk] at h
      simp only [Except.error.injEq] at h
      rw [← h]
      rfl
    · rw [if_neg hk] at h
      simp at h
  · intro pfx m name e h
    exact basic_onHook_err_instanceOf h

/-- Witness for C4: the not-found error of an empty basic registry is
caught by the base class. -/
theorem errors_form_hookError_family_witness :
    instanceOf (mkHookNotFoundError "x").cls .hookErrorCls = true :=
  errors_form_hookError_family.2.1 [] "x" (mkHookNotFoundError "x") rfl

/-- **C5.** For PriorityRegistry.on and for ParallelRegistry.on with
parallel = false, callbacks are invoked strictly sequentially in list
order, and the first callback to throw or reject aborts the call:
the invocation trace is exactly the preceding callbacks plus the
failing one — everything after it is never invoked — and the result is
the wrapped failure. -/
theorem sequential_on_fail_fast :
    (∀ (m : Priority.State) (name : String) (l : List PHook)
        (pre : List Cb) (c : Cb) (post : List Cb) (v : ThrownVal),
      JsMap.get? m name = some l → l ≠ [] →
      l.map (·.fn) = pre ++ c :: post →
      (∀ x ∈ pre, runCb x = none) → runCb c = some v →
      Priority.onHook m name =
        (pre.map (·.id) ++ [c.id], .error (wrapCaught name v))) ∧
    (∀ (m : Parallel.State) (name : String) (l : List Cb)
        (pre : List Cb) (c : Cb) (post : List Cb) (v : ThrownVal),
      JsMap.get? m name = some l → l ≠ [] →
      l = pre ++ c :: post →
      (∀ x ∈ pre, runCb x = none) → runCb c = some v →
      Parallel.onHook m name false =
        (pre.map (·.id) ++ [c.id], .error (wrapCaught name v))) := by
  constructor
  · intro m name l pre c post v hget hne hsplit hpre hc
    have hk : JsMap.hasKey m name = true := JsMap.hasKey_of_get?_some hget
    have hlen : ¬ ((JsMap.get? m name).getD []).length = 0 := by
      rw [hget]
      simpa using fun h => hne (List.length_eq_zero.mp h)
    unfold Priority.onHook
    rw [if_neg (by simp [hk, hlen])]
    rw [hget]
    simp only [Option.getD_some]
    rw [hsplit, runSeq_first_fail hpre hc]
  · intro m name l pre c post v hget hne hsplit hpre hc
    have hk : JsMap.hasKey m name = true := JsMap.hasKey_of_get?_some hget
    have hlen : ¬ ((JsMap.get? m name).getD []).length = 0 := by
      rw [hget]
      simpa using fun h => hne (List.length_eq_zero.mp h)
    unfold Parallel.onHook
    rw [if_neg (by simp [hk, hlen])]
    rw [hget]
    simp only [Option.getD_some, Bool.false_eq_true, if_neg,
      not_false_iff]
    rw [hsplit, runSeq_first_fail hpre hc]

/-- Witness for C5: concrete two-callback lists where the second
callback rejects; only the first two ids are traced. -/
theorem sequential_on_fail_fast_witness :
    Priority.onHook
        [("h", [⟨10, ⟨0, .ok⟩⟩, ⟨5, ⟨1, .asyncReject (.errorVal "e")⟩⟩])]
        "h" =
      ([0, 1], .error (wrapCaught "h" (.errorVal "e"))) ∧
    Parallel.onHook
        [("h", [⟨0, .ok⟩, ⟨1, .asyncReject (.errorVal "e")⟩, ⟨2, .ok⟩])]
        "h" false =
      ([0, 1], .error (wrapCaught "h" (.errorVal "e"))) := by
  constructor
  · exact sequential_on_fail_fast.1
      [("h", [⟨10, ⟨0, .ok⟩⟩, ⟨5, ⟨1, .asyncReject (.errorVal "e")⟩⟩])]
      "h" [⟨10, ⟨0, .ok⟩⟩, ⟨5, ⟨1, .asyncReject (.errorVal "e")⟩⟩]
      [⟨0, .ok⟩] ⟨1, .asyncReject (.errorVal "e")⟩ [] (.errorVal "e")
      (by decide) (by decide) (by decide) (by decide) (by decide)
  · exact sequential_on_fail_fast.2
      [("h", [⟨0, .ok⟩, ⟨1, .asyncReject (.errorVal "e")⟩, ⟨2, .ok⟩])]
      "h" [⟨0, .ok⟩, ⟨1, .asyncReject (.errorVal "e")⟩, ⟨2, .ok⟩]
      [⟨0, .ok⟩] ⟨1, .asyncReject (.errorVal "e")⟩ [⟨2, .ok⟩]
      (.errorVal "e")
      (by decide) (by decide) (by decide) (by decide) (by decide)

/-! ## C6: unregister -/

theorem Parallel.onHook_trace_all_ok_par (m : Parallel.State) (name : String)
    (hl : Parallel.stored m name ≠ [])
    (hok : ∀ c ∈ Parallel.stored m name, runCb c = none) :
    Parallel.onHook m name false =
      ((Parallel.stored m name).map (·.id), .ok ()) := by
  have hk : JsMap.hasKey m name = true := by
    unfold Parallel.stored at hl
    cases hg : JsMap.get? m name with
    | none => rw [hg] at hl; simp at hl
    | some l => exact JsMap.hasKey_of_get?_some hg
  have hlen : ¬ ((JsMap.get? m name).getD []).length = 0 := by
    intro hc
    exact hl (List.length_eq_zero.mp hc)
  unfold onHook
  rw [if_neg (by simp [hk, hlen])]
  simp only [Bool.false_eq_true, if_neg, not_false_iff]
  unfold Parallel.stored at hok ⊢
  rw [runSeq_all_ok hok]

theorem Priority.unregister_some_eq (m : Priority.State) (name : String)
    (l : List PHook) (f : Cb) (hget : JsMap.get? m name = some l) :
    Priority.unregister m name (some f) =
      (if (l.filter (fun e => e.fn != f)).length = 0
        then JsMap.del (JsMap.set m name (l.filter (fun e => e.fn != f))) name
        else JsMap.set m name (l.filter (fun e => e.fn != f)),
       decide (l.length ≠ (l.filter (fun e => e.fn != f)).length)) := by
  unfold unregister
  have hk : JsMap.hasKey m name = true := JsMap.hasKey_of_get?_some hget
  rw [if_neg (by simp [hk])]
  rw [hget]
  rfl

theorem Parallel.unregister_some_eq_par (m : Parallel.State) (name : String)
    (l : List Cb) (f : Cb) (hget : JsMap.get? m name = some l) :
    Parallel.unregister m name (some f) =
      (if (l.filter (fun c => c != f)).length = 0
        then JsMap.del (JsMap.set m name (l.filter (fun c => c != f))) name
        else JsMap.set m name (l.filter (fun c => c != f)),
       decide (l.length ≠ (l.filter (fun c => c != f)).length)) := by
  unfold unregister
  have hk : JsMap.hasKey m name = true := JsMap.hasKey_of_get?_some hget
  rw [if_neg (by simp [hk])]
  rw [hget]
  rfl

/-- **C6.** For PriorityRegistry and ParallelRegistry, `unregister(name)`
with `fn` omitted deletes the entire list for `name` and returns whether
it existed; `unregister(name, fn)` removes exactly the entries whose
callback is reference-equal to `fn`, leaves every other callback intact
and still invocable by `on`, deletes `name` from the map when the list
becomes empty, and returns true iff the list length decreased. -/
theorem unregister_removes_matching_callbacks :
    (∀ (m : Priority.State) (name : String),
      JsMap.get? m name = none →
      Priority.unregister m name none = (m, false)) ∧
    (∀ (m : Priority.State) (name : String) (l : List PHook),
      JsMap.get? m name = some l →
      Priority.unregister m name none = (JsMap.del m name, true)) ∧
    (∀ (m : Priority.State) (name : String) (l : List PHook) (f : Cb),
      JsMap.get? m name = some l → (JsMap.keysOf m).Nodup →
      (l.filter (fun e => e.fn != f) ≠ [] →
        JsMap.get? (Priority.unregister m name (some f)).1 name =
          some (l.filter (fun e => e.fn != f))) ∧
      (l.filter (fun e => e.fn != f) = [] →
        JsMap.get? (Priority.unregister m name (some f)).1 name = none) ∧
      (∀ k, k ≠ name →
        JsMap.get? (Priority.unregister m name (some f)).1 k =
          JsMap.get? m k) ∧
      ((Priority.unregister m name (some f)).2 = true ↔
        (l.filter (fun e => e.fn != f)).length < l.length) ∧
      (l.filter (fun e => e.fn != f) ≠ [] →
        (∀ e ∈ l.filter (fun e => e.fn != f), runCb e.fn = none) →
        (Priority.onHook (Priority.unregister m name (some f)).1 name).1 =
          (l.filter (fun e => e.fn != f)).map (fun e => e.fn.id))) ∧
    (∀ (m : Parallel.State) (name : String),
      JsMap.get? m name = none →
      Parallel.unregister m name none = (m, false)) ∧
    (∀ (m : Parallel.State) (name : String) (l : List Cb),
      JsMap.get? m name = some l →
      Parallel.unregister m name none = (JsMap.del m name, true)) ∧
    (∀ (m : Parallel.State) (name : String) (l : List Cb) (f : Cb),
      JsMap.get? m name = some l → (JsMap.keysOf m).Nodup →
      (l.filter (fun c => c != f) ≠ [] →
        JsMap.get? (Parallel.unregister m name (some f)).1 name =
          some (l.filter (fun c => c != f))) ∧
      (l.filter (fun c => c != f) = [] →
        JsMap.get? (Parallel.unregister m name (some f)).1 name = none) ∧
      (∀ k, k ≠ name →
        JsMap.get? (Parallel.unregister m name (some f)).1 k =
          JsMap.get? m k) ∧
      ((Parallel.unregister m name (some f)).2 = true ↔
        (l.filter (fun c => c != f)).length < l.length) ∧
      (l.filter (fun c => c != f) ≠ [] →
        (∀ c ∈ l.filter (fun c => c != f), runCb c = none) →
        (Parallel.onHook (Parallel.unregister m name (some f)).1 name
            false).1 =
          (l.filter (fun c => c != f)).map (·.id))) := by
  refine ⟨?_, ?_, ?_, ?_, ?_, ?_⟩
  · intro m name hget
    unfold Priority.unregister
    rw [if_pos]
    rw [JsMap.hasKey_eq_isSome_get?, hget]
    simp
  · intro m name l hget
    have hk : JsMap.hasKey m name = true := JsMap.hasKey_of_get?_some hget
    unfold Priority.unregister
    rw [if_neg (by simp [hk]), hk]
  · intro m name l f hget hnd
    have hequ := Priority.unregister_some_eq m name l f hget
    have hst0 : l.filter (fun e => e.fn != f) ≠ [] →
        Priority.stored (Priority.unregister m name (some f)).1 name =
          l.filter (fun e => e.fn != f) := by
      intro hne
      unfold Priority.stored
      rw [hequ]
      have : ¬ (l.filter (fun e => e.fn != f)).length = 0 := by
        simpa using fun h => hne (List.length_eq_zero.mp h)
      simp only [this, if_neg, not_false_iff]
      rw [JsMap.get?_set_self]
      rfl
    refine ⟨?_, ?_, ?_, ?_, ?_⟩
    · intro hne
      have h := hst0 hne
      unfold Priority.stored at h
      cases hg : JsMap.get? (Priority.unregister m name (some f)).1 name with
      | none => rw [hg] at h; exact absurd h.symm hne
      | some l' => rw [hg] at h; exact congrArg some h
    · intro hemp
      rw [hequ]
      rw [hemp]
      simp only [List.length_nil, if_pos]
      exact JsMap.get?_del_self _ _
        (JsMap.nodup_keysOf_set m name [] hnd)
    · intro k hk
      rw [hequ]
      by_cases hemp : (l.filter (fun e => e.fn != f)).length = 0
      · simp only [hemp, if_pos]
        rw [JsMap.get?_del_ne _ _ _ hk, JsMap.get?_set_ne _ _ _ _ hk]
      · simp only [hemp, if_neg, not_false_iff]
        exact JsMap.get?_set_ne _ _ _ _ hk
    · rw [hequ]
      have hle := List.length_filter_le (fun e => e.fn != f) l
      simp only [decide_eq_true_eq]
      omega
    · intro hne hok
      have hst := hst0 hne
      have hne' : Priority.stored (Priority.unregister m name (some f)).1
          name ≠ [] := by rw [hst]; exact hne
      have hok' : ∀ e ∈ Priority.stored
          (Priority.unregister m name (some f)).1 name,
          runCb e.fn = none := by rw [hst]; exact hok
      rw [Priority.onHook_trace_all_ok _ _ hne' hok', hst]
  · intro m name hget
    unfold Parallel.unregister
    rw [if_pos]
    rw [JsMap.hasKey_eq_isSome_get?, hget]
    simp
  · intro m name l hget
    have hk : JsMap.hasKey m name = true := JsMap.hasKey_of_get?_some hget
    unfold Parallel.unregister
    rw [if_neg (by simp [hk]), hk]
  · intro m name l f hget hnd
    have hequ := Parallel.unregister_some_eq_par m name l f hget
    have hst0 : l.filter (fun c => c != f) ≠ [] →
        Parallel.stored (Parallel.unregister m name (some f)).1 name =
          l.filter (fun c => c != f) := by
      intro hne
      unfold Parallel.stored
      rw [hequ]
      have : ¬ (l.filter (fun c => c != f)).length = 0 := by
        simpa using fun h => hne (List.length_eq_zero.mp h)
      simp only [this, if_neg, not_false_iff]
      rw [JsMap.get?_set_self]
      rfl
    refine ⟨?_, ?_, ?_, ?_, ?_⟩
    · intro hne
      have h := hst0 hne
      unfold Parallel.stored at h
      cases hg : JsMap.get? (Parallel.unregister m name (some f)).1 name with
      | none => rw [hg] at h; exact absurd h.symm hne
      | some l' => rw [hg] at h; exact congrArg some h
    · intro hemp
      rw [hequ]
      rw [hemp]
      simp only [List.length_nil, if_pos]
      exact JsMap.get?_del_self _ _
        (JsMap.nodup_keysOf_set m name [] hnd)
    · intro k hk
      rw [hequ]
      by_cases hemp : (l.filter (fun c => c != f)).length = 0
      · simp only [hemp, if_pos]
        rw [JsMap.get?_del_ne _ _ _ hk, JsMap.get?_set_ne _ _ _ _ hk]
      · simp only [hemp, if_neg, not_false_iff]
        exact JsMap.get?_set_ne _ _ _ _ hk
    · rw [hequ]
      have hle := List.length_filter_le (fun c => c != f) l
      simp only [decide_eq_true_eq]
      omega
    · intro hne hok
      have hst := hst0 hne
      have hne' : Parallel.stored (Parallel.unregister m name (some f)).1
          name ≠ [] := by rw [hst]; exact hne
      have hok' : ∀ c ∈ Parallel.stored
          (Parallel.unregister m name (some f)).1 name,
          runCb c = none := by rw [hst]; exact hok
      rw [Parallel.onHook_trace_all_ok_par _ _ hne' hok', hst]

/-- Witness for C6: removing one of two callbacks by reference leaves
the other stored and invocable. -/
theorem unregister_removes_matching_callbacks_witness :
    JsMap.get? (Priority.unregister
        [("h", [⟨10, ⟨0, .ok⟩⟩, ⟨5, ⟨1, .ok⟩⟩])] "h"
        (some ⟨1, .ok⟩)).1 "h" = some [⟨10, ⟨0, .ok⟩⟩] := by
  have h := ((unregister_removes_matching_callbacks.2.2.1
    [("h", [⟨10, ⟨0, .ok⟩⟩, ⟨5, ⟨1, .ok⟩⟩])] "h"
    [⟨10, ⟨0, .ok⟩⟩, ⟨5, ⟨1, .ok⟩⟩] ⟨1, .ok⟩
    (by decide) (by decide)).1 (by decide))
  simpa using h

/-! ## C7: the scoped registry -/

theorem jsStartsWith_prefix_append (pfx n : String) :
    jsStartsWith (pfx ++ ":" ++ n) (pfx ++ ":") = true := by
  unfold jsStartsWith
  rw [String.data_append]
  simp

theorem drop_prefix_append (pfx n : String) :
    (pfx ++ ":" ++ n).drop (pfx.length + 1) = n := by
  rw [String.drop_eq]
  have hlen : pfx.length + 1 = ((pfx ++ ":").data).length := by
    cases pfx with
    | mk d =>
      rw [String.data_append]
      simp
  cases n with
  | mk nd =>
    cases pfx with
    | mk pd =>
      apply congrArg String.mk
      rw [show ((String.mk pd ++ ":" ++ String.mk nd)).data =
          ((String.mk pd ++ ":").data) ++ nd from by
        rw [String.data_append]]
      rw [hlen, List.drop_left]

/-- **C7.** The ScopedRegistry delegates every operation to the inner
BasicRegistry under the translated name `prefix + ":" + name`, and
`list()` filters to the prefixed names and strips the prefix: the
translated name always passes the filter and strips back to the
original name; concretely, with prefix "user", after
`register("login", fn)` the inner map holds "user:login", `list()`
returns ["login"], and a direct inner lookup of the unprefixed "login"
fails with `HookNotFoundError`. -/
theorem scoped_delegates_with_prefix :
    (∀ (pfx : String) (m : Basic.State) (name : String) (fn : Cb),
      Scoped.register pfx m name fn =
        Basic.register m (pfx ++ ":" ++ name) fn) ∧
    (∀ (pfx : String) (m : Basic.State) (name : String),
      Scoped.unregister pfx m name =
        Basic.unregister m (pfx ++ ":" ++ name)) ∧
    (∀ (pfx : String) (m : Basic.State) (name : String),
      Scoped.hasHook pfx m name = Basic.hasHook m (pfx ++ ":" ++ name)) ∧
    (∀ (pfx : String) (m : Basic.State) (name : String),
      Scoped.onHook pfx m name = Basic.onHook m (pfx ++ ":" ++ name)) ∧
    (∀ (pfx name : String),
      jsStartsWith (pfx ++ ":" ++ name) (pfx ++ ":") = true ∧
      (pfx ++ ":" ++ name).drop (pfx.length + 1) = name) ∧
    ((Scoped.register "user" [] "login" ⟨0, .ok⟩).2 =
        [("user:login", ⟨0, .ok⟩)] ∧
     Scoped.listHooks "user"
        (Scoped.register "user" [] "login" ⟨0, .ok⟩).2 = ["login"] ∧
     Basic.onHook (Scoped.register "user" [] "login" ⟨0, .ok⟩).2 "login" =
        ([], .error (mkHookNotFoundError "login"))) := by
  refine ⟨fun _ _ _ _ => rfl, fun _ _ _ => rfl, fun _ _ _ => rfl,
    fun _ _ _ => rfl, ?_, ?_⟩
  · intro pfx name
    exact ⟨jsStartsWith_prefix_append pfx name,
      drop_prefix_append pfx name⟩
  · refine ⟨by decide, ?_, rfl⟩
    show Scoped.listHooks "user" [("user:login", ⟨0, .ok⟩)] = ["login"]
    unfold Scoped.listHooks Basic.listHooks JsMap.keysOf
    rw [show ([("user:login", (⟨0, .ok⟩ : Cb))].map (·.1)) =
      ["user:login"] from rfl]
    rw [List.filter_cons]
    rw [show jsStartsWith "user:login" ("user" ++ ":") = true from by decide]
    simp only [if_pos, List.filter_nil, List.map_cons, List.map_nil]
    rw [show ("user:login").drop ((("user" : String)).length + 1) =
      "login" from by decide]

/-! ## C8: parallel mode -/

theorem Parallel.onHook_parallel_eq (m : Parallel.State) (name : String)
    (l : List Cb) (hget : JsMap.get? m name = some l) (hne : l ≠ []) :
    Parallel.onHook m name true =
      ((startAll l).1,
        match (startAll l).2 with
        | .error v => .error (wrapCaught name v)
        | .ok ps =>
          match promiseAll ps with
          | some v => .error (wrapCaught name v)
          | none => .ok ()) := by
  have hk := JsMap.hasKey_of_get?_some hget
  have hlen : ¬ ((JsMap.get? m name).getD []).length = 0 := by
    rw [hget]
    simpa using fun h => hne (List.length_eq_zero.mp h)
  unfold Parallel.onHook
  rw [if_neg (by simp [hk, hlen])]
  rw [hget]
  simp only [Option.getD_some, if_pos]
  cases hs : (startAll l).2 with
  | error v => simp [hs]
  | ok ps => cases hp : promiseAll ps <;> simp [hs, hp]

/-- Counterexample to C8 as stated: with `parallel = true` and a first
callback that throws synchronously during the `map` that builds the
promise array, the second registered (non-failing) callback is never
started, although the claim asserts that every registered callback is
started before any await. -/
theorem parallel_on_counterexample :
    JsMap.get? ([("h", [⟨0, .syncThrow (.errorVal "boom")⟩, ⟨1, .ok⟩])] :
        Parallel.State) "h" =
      some [⟨0, .syncThrow (.errorVal "boom")⟩, ⟨1, .ok⟩] ∧
    (Parallel.onHook
        [("h", [⟨0, .syncThrow (.errorVal "boom")⟩, ⟨1, .ok⟩])] "h"
        true).1 = [0] ∧
    ¬ ((1 : Nat) ∈ (Parallel.onHook
        [("h", [⟨0, .syncThrow (.errorVal "boom")⟩, ⟨1, .ok⟩])] "h"
        true).1) := by
  refine ⟨by decide, by decide, by decide⟩

/-- **C8 (amended).** ParallelRegistry.on with `parallel = true` fails
with HookNotFound when `name` has no non-empty list; otherwise the
start phase invokes the callbacks in list order until one throws
synchronously — in particular, when no callback throws synchronously
(all failures are promise rejections) every registered callback is
started before any is awaited, none being cancelled — and the call
fails with the wrapped error if and only if at least one callback
throws or rejects. -/
theorem parallel_on_parallel_semantics :
    (∀ (m : Parallel.State) (name : String),
      JsMap.get? m name = none →
      Parallel.onHook m name true =
        ([], .error (mkHookNotFoundError name))) ∧
    (∀ (m : Parallel.State) (name : String),
      JsMap.get? m name = some [] →
      Parallel.onHook m name true =
        ([], .error (mkHookNotFoundError name))) ∧
    (∀ (m : Parallel.State) (name : String) (l : List Cb),
      JsMap.get? m name = some l → l ≠ [] →
      ((∀ c ∈ l, NoSyncThrow c) →
        (Parallel.onHook m name true).1 = l.map (·.id)) ∧
      ((Parallel.onHook m name true).2 = .ok () ↔
        ∀ c ∈ l, runCb c = none) ∧
      ((∃ e, (Parallel.onHook m name true).2 = .error e) ↔
        ∃ c ∈ l, runCb c ≠ none)) := by
  refine ⟨?_, ?_, ?_⟩
  · intro m name hget
    have hk : JsMap.hasKey m name = false := by
      rw [JsMap.hasKey_eq_isSome_get?, hget]
      rfl
    unfold Parallel.onHook
    rw [if_pos (Or.inl (by simp [hk]))]
  · intro m name hget
    unfold Parallel.onHook
    rw [if_pos (Or.inr (by rw [hget]; rfl))]
  · intro m name l hget hne
    have hon := Parallel.onHook_parallel_eq m name l hget hne
    have hok_iff : (Parallel.onHook m name true).2 = .ok () ↔
        ∀ c ∈ l, runCb c = none := by
      rw [hon]
      cases hs : (startAll l).2 with
      | error v =>
        constructor
        · intro h
          exact absurd h (by simp)
        · intro hall
          rcases startAll_error_exists_fail hs with ⟨c, hc, hf⟩
          exact absurd (hall c hc) hf
      | ok ps =>
        have hps : ps = l.map runCb := startAll_ok_imp_settles hs
        subst hps
        cases hp : promiseAll (l.map runCb) with
        | none =>
          simp only [hp]
          constructor
          · intro _
            exact (promiseAll_map_runCb_eq_none_iff l).mp hp
          · intro _
            trivial
        | some v =>
          simp only [hp]
          constructor
          · intro h
            exact absurd h (by simp)
          · intro hall
            rw [(promiseAll_map_runCb_eq_none_iff l).mpr hall] at hp
            exact absurd hp (by simp)
    refine ⟨?_, hok_iff, ?_⟩
    · intro hns
      rw [hon]
      rw [startAll_of_noSyncThrow hns]
    · constructor
      · rintro ⟨e, he⟩
        by_contra hno
        push_neg at hno
        rw [hok_iff.mpr hno] at he
        exact absurd he (by simp)
      · rintro ⟨c, hc, hf⟩
        cases hres : (Parallel.onHook m name true).2 with
        | ok u =>
          cases u
          exact absurd (hok_iff.mp hres c hc) hf
        | error e => exact ⟨e, rfl⟩

/-- Witness for C8 (amended): a concrete all-asynchronous pair of
callbacks, one rejecting — both are started and the call fails. -/
theorem parallel_on_parallel_semantics_witness :
    (Parallel.onHook
        [("h", [⟨0, .asyncReject (.errorVal "b")⟩, ⟨1, .ok⟩])] "h"
        true).1 = [0, 1] := by
  have h := ((parallel_on_parallel_semantics.2.2
    [("h", [⟨0, .asyncReject (.errorVal "b")⟩, ⟨1, .ok⟩])] "h"
    [⟨0, .asyncReject (.errorVal "b")⟩, ⟨1, .ok⟩]
    (by decide) (by decide)).1 (by decide))
  simpa using h

/-! ## C9: no empty lists are ever stored -/

/-- Well-formedness of a list-valued registry map: keys are unique and
no stored list is empty. -/
def RegWF {β : Type} (m : List (String × List β)) : Prop :=
  (JsMap.keysOf m).Nodup ∧
    ∀ name l, JsMap.get? m name = some l → l ≠ []

theorem Priority.WF_register {m : Priority.State} (hwf : RegWF m)
    (name : String) (fn : Cb) (priority : Int) :
    RegWF (Priority.register m name fn priority) := by
  constructor
  · unfold Priority.register
    apply JsMap.nodup_keysOf_set
    by_cases h : JsMap.hasKey m name
    · simpa [h] using hwf.1
    · have hf : JsMap.hasKey m name = false := by simpa using h
      simp only [hf, Bool.false_eq_true, if_neg, not_false_iff]
      exact JsMap.nodup_keysOf_set m name [] hwf.1
  · intro k l hget
    by_cases hk : k = name
    · subst hk
      rw [Priority.get?_register_self] at hget
      have hls : l = sortByPriorityDesc
          (Priority.stored m k ++ [⟨priority, fn⟩]) := by
        simpa using hget.symm
      rw [hls]
      exact sortByPriorityDesc_ne_nil (by simp)
    · rw [Priority.get?_register_ne _ _ _ _ _ hk] at hget
      exact hwf.2 k l hget

theorem Priority.WF_unregister {m : Priority.State} (hwf : RegWF m)
    (name : String) (fn : Option Cb) :
    RegWF (Priority.unregister m name fn).1 := by
  by_cases hk : JsMap.hasKey m name = true
  · cases fn with
    | none =>
      have heq : Priority.unregister m name none =
          (JsMap.del m name, JsMap.hasKey m name) := by
        unfold unregister
        rw [if_neg (by simp [hk])]
      rw [heq]
      refine ⟨JsMap.nodup_keysOf_del _ _ hwf.1, ?_⟩
      intro k l hget
      by_cases hkk : k = name
      · subst hkk
        rw [JsMap.get?_del_self _ _ hwf.1] at hget
        exact absurd hget (by simp)
      · rw [JsMap.get?_del_ne _ _ _ hkk] at hget
        exact hwf.2 k l hget
    | some f =>
      obtain ⟨l0, hget0⟩ : ∃ l0, JsMap.get? m name = some l0 := by
        rw [JsMap.hasKey_eq_isSome_get?] at hk
        cases hg : JsMap.get? m name with
        | none => rw [hg] at hk; simp at hk
        | some l0 => exact ⟨l0, rfl⟩
      rw [Priority.unregister_some_eq m name l0 f hget0]
      by_cases hemp : (l0.filter (fun e => e.fn != f)).length = 0
      · simp only [hemp, if_pos]
        refine ⟨JsMap.nodup_keysOf_del _ _
          (JsMap.nodup_keysOf_set _ _ _ hwf.1), ?_⟩
        intro k l hget
        by_cases hkk : k = name
        · subst hkk
          rw [JsMap.get?_del_self _ _
            (JsMap.nodup_keysOf_set _ _ _ hwf.1)] at hget
          exact absurd hget (by simp)
        · rw [JsMap.get?_del_ne _ _ _ hkk,
            JsMap.get?_set_ne _ _ _ _ hkk] at hget
          exact hwf.2 k l hget
      · simp only [hemp, if_neg, not_false_iff]
        refine ⟨JsMap.nodup_keysOf_set _ _ _ hwf.1, ?_⟩
        intro k l hget
        by_cases hkk : k = name
        · subst hkk
          rw [JsMap.get?_set_self] at hget
          have hl : l = l0.filter (fun e => e.fn != f) := by
            simpa using hget.symm
          rw [hl]
          intro hc
          exact hemp (by rw [hc]; rfl)
        · rw [JsMap.get?_set_ne _ _ _ _ hkk] at hget
          exact hwf.2 k l hget
  · have heq : Priority.unregister m name fn = (m, false) := by
      unfold unregister
      rw [if_pos (by simpa using hk)]
    rw [heq]
    exact hwf

theorem Parallel.WF_register_par {m : Parallel.State} (hwf : RegWF m)
    (name : String) (fn : Cb) :
    RegWF (Parallel.register m name fn) := by
  constructor
  · unfold Parallel.register
    apply JsMap.nodup_keysOf_set
    by_cases h : JsMap.hasKey m name
    · simpa [h] using hwf.1
    · have hf : JsMap.hasKey m name = false := by simpa using h
      simp only [hf, Bool.false_eq_true, if_neg, not_false_iff]
      exact JsMap.nodup_keysOf_set m name [] hwf.1
  · intro k l hget
    by_cases hk : k = name
    · subst hk
      rw [Parallel.get?_register_self_par] at hget
      have hls : l = Parallel.stored m k ++ [fn] := by
        simpa using hget.symm
      rw [hls]
      simp
    · rw [Parallel.get?_register_ne_par _ _ _ _ hk] at hget
      exact hwf.2 k l hget

theorem Parallel.WF_unregister_par {m : Parallel.State} (hwf : RegWF m)
    (name : String) (fn : Option Cb) :
    RegWF (Parallel.unregister m name fn).1 := by
  by_cases hk : JsMap.hasKey m name = true
  · cases fn with
    | none =>
      have heq : Parallel.unregister m name none =
          (JsMap.del m name, JsMap.hasKey m name) := by
        unfold unregister
        rw [if_neg (by simp [hk])]
      rw [heq]
      refine ⟨JsMap.nodup_keysOf_del _ _ hwf.1, ?_⟩
      intro k l hget
      by_cases hkk : k = name
      · subst hkk
        rw [JsMap.get?_del_self _ _ hwf.1] at hget
        exact absurd hget (by simp)
      · rw [JsMap.get?_del_ne _ _ _ hkk] at hget
        exact hwf.2 k l hget
    | some f =>
      obtain ⟨l0, hget0⟩ : ∃ l0, JsMap.get? m name = some l0 := by
        rw [JsMap.hasKey_eq_isSome_get?] at hk
        cases hg : JsMap.get? m name with
        | none => rw [hg] at hk; simp at hk
        | some l0 => exact ⟨l0, rfl⟩
      rw [Parallel.unregister_some_eq_par m name l0 f hget0]
      by_cases hemp : (l0.filter (fun c => c != f)).length = 0
      · simp only [hemp, if_pos]
        refine ⟨JsMap.nodup_keysOf_del _ _
          (JsMap.nodup_keysOf_set _ _ _ hwf.1), ?_⟩
        intro k l hget
        by_cases hkk : k = name
        · subst hkk
          rw [JsMap.get?_del_self _ _
            (JsMap.nodup_keysOf_set _ _ _ hwf.1)] at hget
          exact absurd hget (by simp)
        · rw [JsMap.get?_del_ne _ _ _ hkk,
            JsMap.get?_set_ne _ _ _ _ hkk] at hget
          exact hwf.2 k l hget
      · simp only [hemp, if_neg, not_false_iff]
        refine ⟨JsMap.nodup_keysOf_set _ _ _ hwf.1, ?_⟩
        intro k l hget
        by_cases hkk : k = name
        · subst hkk
          rw [JsMap.get?_set_self] at hget
          have hl : l = l0.filter (fun c => c != f) := by
            simpa using hget.symm
          rw [hl]
          intro hc
          exact hemp (by rw [hc]; rfl)
        · rw [JsMap.get?_set_ne _ _ _ _ hkk] at hget
          exact hwf.2 k l hget
  · have heq : Parallel.unregister m name fn = (m, false) := by
      unfold unregister
      rw [if_pos (by simpa using hk)]
    rw [heq]
    exact hwf

/-- One operation of a PriorityRegistry session. -/
inductive POp
  | reg (name : String) (fn : Cb) (priority : Int)
  | unreg (name : String) (fn : Option Cb)
  | trigger (name : String)

/-- Apply one operation; `on` (trigger) never mutates the map. -/
def Priority.step (m : Priority.State) : POp → Priority.State
  | POp.reg n f p => Priority.register m n f p
  | POp.unreg n f => (Priority.unregister m n f).1
  | POp.trigger _ => m

/-- Run a whole session from the fresh (empty) registry. -/
def Priority.run (ops : List POp) : Priority.State :=
  ops.foldl Priority.step []

/-- One operation of a ParallelRegistry session. -/
inductive QOp
  | reg (name : String) (fn : Cb)
  | unreg (name : String) (fn : Option Cb)
  | trigger (name : String)

/-- Apply one operation; `on` (trigger) never mutates the map. -/
def Parallel.step (m : Parallel.State) : QOp → Parallel.State
  | QOp.reg n f => Parallel.register m n f
  | QOp.unreg n f => (Parallel.unregister m n f).1
  | QOp.trigger _ => m

/-- Run a whole session from the fresh (empty) registry. -/
def Parallel.run (ops : List QOp) : Parallel.State :=
  ops.foldl Parallel.step []

theorem RegWF_nil {β : Type} : RegWF ([] : List (String × List β)) := by
  constructor
  · simp [JsMap.keysOf]
  · intro k l h
    exact absurd h (by simp [JsMap.get?])

theorem Priority.WF_run (ops : List POp) : RegWF (Priority.run ops) := by
  suffices h : ∀ m, RegWF m → RegWF (ops.foldl Priority.step m) from
    h [] RegWF_nil
  induction ops with
  | nil => intro m hm; exact hm
  | cons op ops ih =>
    intro m hm
    apply ih
    cases op with
    | reg n f p => exact Priority.WF_register hm n f p
    | unreg n f => exact Priority.WF_unregister hm n f
    | trigger n => exact hm

theorem Parallel.WF_run_par (ops : List QOp) : RegWF (Parallel.run ops) := by
  suffices h : ∀ m, RegWF m → RegWF (ops.foldl Parallel.step m) from
    h [] RegWF_nil
  induction ops with
  | nil => intro m hm; exact hm
  | cons op ops ih =>
    intro m hm
    apply ih
    cases op with
    | reg n f => exact Parallel.WF_register_par hm n f
    | unreg n f => exact Parallel.WF_unregister_par hm n f
    | trigger n => exact hm

theorem Priority.hasHook_iff (m : Priority.State) (name : String) :
    Priority.hasHook m name = true ↔
      ∃ l, JsMap.get? m name = some l ∧ l ≠ [] := by
  unfold hasHook
  rw [JsMap.hasKey_eq_isSome_get?]
  cases hg : JsMap.get? m name with
  | none => simp
  | some l => simp [List.length_pos]

theorem Parallel.hasHook_iff_par (m : Parallel.State) (name : String) :
    Parallel.hasHook m name = true ↔
      ∃ l, JsMap.get? m name = some l ∧ l ≠ [] := by
  unfold hasHook
  rw [JsMap.hasKey_eq_isSome_get?]
  cases hg : JsMap.get? m name with
  | none => simp
  | some l => simp [List.length_pos]

theorem Priority.listHooks_iff (m : Priority.State) (hwf : RegWF m)
    (n : String) :
    n ∈ Priority.listHooks m ↔
      ∃ l, JsMap.get? m n = some l ∧ l ≠ [] := by
  unfold listHooks
  rw [JsMap.mem_keysOf_iff_hasKey, JsMap.hasKey_eq_isSome_get?]
  cases hg : JsMap.get? m n with
  | none => simp
  | some l =>
    simp only [Option.isSome_some, true_iff, Option.some.injEq]
    exact ⟨l, rfl, hwf.2 n l hg⟩

theorem Parallel.listHooks_iff_par (m : Parallel.State) (hwf : RegWF m)
    (n : String) :
    n ∈ Parallel.listHooks m ↔
      ∃ l, JsMap.get? m n = some l ∧ l ≠ [] := by
  unfold listHooks
  rw [JsMap.mem_keysOf_iff_hasKey, JsMap.hasKey_eq_isSome_get?]
  cases hg : JsMap.get? m n with
  | none => simp
  | some l =>
    simp only [Option.isSome_some, true_iff, Option.some.injEq]
    exact ⟨l, rfl, hwf.2 n l hg⟩

theorem Priority.hasHook_unreg_none (m : Priority.State) (hwf : RegWF m)
    (name : String) :
    Priority.hasHook (Priority.unregister m name none).1 name = false := by
  by_cases hk : JsMap.hasKey m name = true
  · have heq : (Priority.unregister m name none).1 = JsMap.del m name := by
      unfold unregister
      rw [if_neg (by simp [hk])]
    rw [heq]
    unfold hasHook
    rw [JsMap.hasKey_del_self _ _ hwf.1]
    rfl
  · have heq : (Priority.unregister m name none).1 = m := by
      unfold unregister
      rw [if_pos (by simpa using hk)]
    rw [heq]
    unfold hasHook
    rw [show JsMap.hasKey m name = false from by simpa using hk]
    rfl

theorem Parallel.hasHook_unreg_none_par (m : Parallel.State) (hwf : RegWF m)
    (name : String) :
    Parallel.hasHook (Parallel.unregister m name none).1 name = false := by
  by_cases hk : JsMap.hasKey m name = true
  · have heq : (Parallel.unregister m name none).1 = JsMap.del m name := by
      unfold unregister
      rw [if_neg (by simp [hk])]
    rw [heq]
    unfold hasHook
    rw [JsMap.hasKey_del_self _ _ hwf.1]
    rfl
  · have heq : (Parallel.unregister m name none).1 = m := by
      unfold unregister
      rw [if_pos (by simpa using hk)]
    rw [heq]
    unfold hasHook
    rw [show JsMap.hasKey m name = false from by simpa using hk]
    rfl

/-- **C9.** After any sequence of register/unregister/on operations on
a fresh PriorityRegistry or ParallelRegistry, every name present in the
map holds a non-empty list; consequently `list()` returns exactly the
names with at least one registered callback, `has(name)` is true iff
the name has at least one live callback, and `has` is false immediately
after a full `unregister(name)`. -/
theorem registries_never_store_empty_lists (pops : List POp)
    (qops : List QOp) (name n : String) :
    (∀ k l, JsMap.get? (Priority.run pops) k = some l → l ≠ []) ∧
    (n ∈ Priority.listHooks (Priority.run pops) ↔
      ∃ l, JsMap.get? (Priority.run pops) n = some l ∧ l ≠ []) ∧
    (Priority.hasHook (Priority.run pops) name = true ↔
      ∃ l, JsMap.get? (Priority.run pops) name = some l ∧ l ≠ []) ∧
    (Priority.hasHook
      (Priority.unregister (Priority.run pops) name none).1 name = false) ∧
    (∀ k l, JsMap.get? (Parallel.run qops) k = some l → l ≠ []) ∧
    (n ∈ Parallel.listHooks (Parallel.run qops) ↔
      ∃ l, JsMap.get? (Parallel.run qops) n = some l ∧ l ≠ []) ∧
    (Parallel.hasHook (Parallel.run qops) name = true ↔
      ∃ l, JsMap.get? (Parallel.run qops) name = some l ∧ l ≠ []) ∧
    (Parallel.hasHook
      (Parallel.unregister (Parallel.run qops) name none).1 name = false) := by
  have hpw := Priority.WF_run pops
  have hqw := Parallel.WF_run_par qops
  exact ⟨hpw.2,
    Priority.listHooks_iff _ hpw n,
    Priority.hasHook_iff _ name,
    Priority.hasHook_unreg_none _ hpw name,
    hqw.2,
    Parallel.listHooks_iff_par _ hqw n,
    Parallel.hasHook_iff_par _ name,
    Parallel.hasHook_unreg_none_par _ hqw name⟩

/-- Witness for C9: the list stored after one concrete registration is
non-empty, via the invariant. -/
theorem registries_never_store_empty_lists_witness :
    ([⟨5, ⟨0, CbBehavior.ok⟩⟩] : List PHook) ≠ [] :=
  (registries_never_store_empty_lists [POp.reg "a" ⟨0, .ok⟩ 5] [] "a" "a").1
    "a" [⟨5, ⟨0, .ok⟩⟩] (by decide)

/-- **C10.** When ScopedRegistry.on is called for an unregistered name,
the `HookNotFoundError` surfaced to the caller is built from the
internal translated name `prefix + ":" + name`, whose message names the
translated name rather than the caller-supplied one: the namespace
prefix leaks into the user-visible error message. -/
theorem scoped_notFound_message_uses_translated_name (pfx : String)
    (m : Basic.State) (n : String)
    (hget : JsMap.get? m (pfx ++ ":" ++ n) = none) :
    Scoped.onHook pfx m n =
      ([], .error (mkHookNotFoundError (pfx ++ ":" ++ n))) ∧
    SubstrOf (pfx ++ ":" ++ n)
      (mkHookNotFoundError (pfx ++ ":" ++ n)).message ∧
    ((Scoped.onHook "user" [] "login").2 =
      .error (mkHookNotFoundError "user:login") ∧
     (mkHookNotFoundError "user:login").message =
       "Hook \"user:login\" is not registered" ∧
     (mkHookNotFoundError "user:login").message ≠
       (mkHookNotFoundError "login").message) := by
  refine ⟨?_, ?_, rfl, by decide, by decide⟩
  · unfold Scoped.onHook Basic.onHook
    rw [hget]
  · exact substrOf_append_mid (pfx ++ ":" ++ n) "Hook \""
      "\" is not registered"

/-- Witness for C10 at the concrete "user"/"login" instance. -/
theorem scoped_notFound_message_uses_translated_name_witness :
    Scoped.onHook "user" [] "login" =
      ([], .error (mkHookNotFoundError ("user" ++ ":" ++ "login"))) :=
  (scoped_notFound_message_uses_translated_name "user" [] "login" rfl).1
